import Mathlib

/-!
# Verification of the temporal signal pipeline

A shallow embedding of the core pipeline of the repository
(`temporal_smoothing.py`, `build_state_and_planner.py`, `segment_world_state.py`):
majority-vote smoothing, GO re-injection, run segmentation, state classification
and planner synthesis, together with theorems checking the natural-language
specification against the code.

Modelling conventions:
* Python `dict` rows are association lists `Row = List (String × Val)` where a
  `Val` is either a string or an integer (`frame_index` is stored as an integer
  after the loaders call `int(...)` on it).  `Row.set` follows Python dict
  assignment: replace the first binding of the key in place, else append.
* `str.strip()` is modelled by `pyStrip`, stripping the ASCII whitespace
  characters from both ends.
* Stage `main` functions are modelled from the point where the input table has
  been loaded; file writes are represented by the returned artifact list, and
  `raise` by `Except.error`.
-/

set_option maxHeartbeats 1600000

/-- Python ASCII whitespace characters (those removed by `str.strip()`). -/
def isPySpace (c : Char) : Bool :=
  c = ' ' || c = '\t' || c = '\n' || c = '\r' || c = '\x0b' || c = '\x0c'

/-- Model of Python `str.strip()`: remove leading and trailing whitespace. -/
def pyStrip (s : String) : String :=
  ⟨(((s.data.dropWhile isPySpace).reverse.dropWhile isPySpace).reverse)⟩

/-- A Python value stored in a row dict: a string or an integer. -/
inductive Val where
  | str (s : String)
  | int (n : Int)
deriving DecidableEq, Repr

instance : Inhabited Val := ⟨.str ""⟩

/-- A Python row dict: an association list of field name to value. -/
abbrev Row := List (String × Val)

/-- First binding of a key, like Python `row[k]` / `row.get(k)`. -/
def Row.get? (r : Row) (k : String) : Option Val :=
  (r.find? (fun p => p.1 = k)).map (·.2)

/-- Python `row.get(k, d)`. -/
def Row.getV (r : Row) (k : String) (d : Val) : Val :=
  (r.get? k).getD d

/-- Read a string-valued field (the pipeline only reads declared string
columns this way; a missing or non-string value is read as `""`). -/
def Row.getStr (r : Row) (k : String) : String :=
  match r.get? k with
  | some (.str s) => s
  | _ => ""

/-- Read an integer-valued field (`frame_index`, converted by the loaders). -/
def Row.getInt (r : Row) (k : String) : Int :=
  match r.get? k with
  | some (.int n) => n
  | _ => 0

/-- Python dict assignment `row[k] = v`: overwrite the first binding of `k`
keeping its position, else append the new binding. -/
def Row.set (r : Row) (k : String) (v : Val) : Row :=
  match r with
  | [] => [(k, v)]
  | (k', v') :: rest => if k' = k then (k, v) :: rest else (k', v') :: Row.set rest k v

/-- Python `k in row`. -/
def Row.hasKey (r : Row) (k : String) : Bool :=
  (r.get? k).isSome

/-- `map_world_to_state` from `build_state_and_planner.py`: map a
(affordance, yield_to, lead_state) triple to a symbolic driving state.
The source strips each argument first, then runs the priority rules. -/
def map_world_to_state (a y l : String) : String :=
  let a := pyStrip a
  let y := pyStrip y
  let l := pyStrip l
  -- Pedestrians dominate
  if y = "ped" then
    if a = "stop" then "STOP_PED" else "YIELD_PED"
  -- Lead-based constraints
  else if y = "lead" then
    if l = "stopped" then
      if a = "stop" then "STOP_LEAD" else "FOLLOW_QUEUE"
    else
      if a = "go" then "GO_FOLLOW" else "FOLLOW_QUEUE"
  -- No explicit yield target
  else if a = "go" ∧ y = "none" then
    if l = "none" ∨ l = "" then "GO_FREE" else "GO"
  else if a = "wait" ∧ y = "none" then "NEGOTIATE"
  -- default catch-all
  else "UNKNOWN"

/-- Modelled from the spec: the StateClassifier contract of section 4.4,
applied literally to the given strings (first matching rule wins, no
normalization). -/
def specClassify (a y l : String) : String :=
  if y = "ped" then
    if a = "stop" then "STOP_PED" else "YIELD_PED"
  else if y = "lead" ∧ l = "stopped" then
    if a = "stop" then "STOP_LEAD" else "FOLLOW_QUEUE"
  else if y = "lead" ∧ l ≠ "stopped" then
    if a = "go" then "GO_FOLLOW" else "FOLLOW_QUEUE"
  else if a = "go" ∧ y = "none" then
    if l = "none" ∨ l = "" then "GO_FREE" else "GO"
  else if a = "wait" ∧ y = "none" then "NEGOTIATE"
  else "UNKNOWN"

lemma dropWhile_head_false {α : Type} (p : α → Bool) (l : List α)
    (h : l.dropWhile p = l) : ∀ a t, l = a :: t → p a = false := by
  intro a t hl
  subst hl
  by_contra hpa
  have hpa' : p a = true := by revert hpa; cases p a <;> simp
  rw [List.dropWhile_cons_of_pos hpa'] at h
  have := congrArg List.length h
  have hle := (List.dropWhile_sublist (l := t) p).length_le
  simp at this
  omega

lemma dropWhile_eq_self_of_head {α : Type} (p : α → Bool) (l : List α)
    (h : ∀ a t, l = a :: t → p a = false) : l.dropWhile p = l := by
  cases l with
  | nil => rfl
  | cons a t => exact List.dropWhile_cons_of_neg (by simp [h a t rfl])

lemma dropWhile_idem {α : Type} (p : α → Bool) (l : List α) :
    (l.dropWhile p).dropWhile p = l.dropWhile p := by
  apply dropWhile_eq_self_of_head
  intro a t h
  have h2 := List.head?_dropWhile_not p l
  rw [h] at h2
  simpa using h2

lemma getLast?_dropWhile {α : Type} (p : α → Bool) (l : List α)
    (h : l.dropWhile p ≠ []) : (l.dropWhile p).getLast? = l.getLast? := by
  conv_rhs => rw [← List.takeWhile_append_dropWhile p l]
  rw [List.getLast?_append_of_ne_nil _ h]

lemma dropWhile_back_eq_self {α : Type} (p : α → Bool) (x : List α)
    (hx : x.dropWhile p = x) :
    ((x.reverse.dropWhile p).reverse).dropWhile p = (x.reverse.dropWhile p).reverse := by
  apply dropWhile_eq_self_of_head
  intro a t hat
  have h1 : (x.reverse.dropWhile p).reverse.head? = some a := by rw [hat]; rfl
  rw [List.head?_reverse] at h1
  have hne : x.reverse.dropWhile p ≠ [] := by
    intro hnil; rw [hnil] at h1; simp at h1
  rw [getLast?_dropWhile p x.reverse hne] at h1
  have h2 : x.head? = some a := by
    rw [← List.reverse_reverse x, List.head?_reverse]; exact h1
  cases x with
  | nil => simp at h2
  | cons b t' =>
    simp at h2
    subst h2
    exact dropWhile_head_false p _ hx _ t' rfl

lemma trimL_idem {α : Type} (p : α → Bool) (l : List α) :
    (((((l.dropWhile p).reverse.dropWhile p).reverse).dropWhile p).reverse.dropWhile p).reverse
      = ((l.dropWhile p).reverse.dropWhile p).reverse := by
  have h1 := dropWhile_back_eq_self p (l.dropWhile p) (dropWhile_idem p l)
  rw [h1, List.reverse_reverse, dropWhile_idem p]

/-- Stripping is idempotent: stripping an already-stripped string changes
nothing. -/
lemma pyStrip_idem (s : String) : pyStrip (pyStrip s) = pyStrip s :=
  congrArg String.mk (trimL_idem isPySpace s.data)

/-- The planner command record produced for a segment state. -/
structure PlannerInfo where
  planner_cmd : String
  reason : String
  target : String
  until_ : String
deriving DecidableEq, Repr

/-- `map_state_to_planner` from `build_state_and_planner.py`: fixed lookup
table from symbolic state to planner record (the `until` CSV column is the
`until_` field).  The source strips the state first. -/
def map_state_to_planner (state : String) : PlannerInfo :=
  let state := pyStrip state
  if state = "FOLLOW_QUEUE" then
    ⟨"FOLLOW", "traffic_queue", "lead", "lead_moves"⟩
  else if state = "GO_FOLLOW" then
    ⟨"GO", "lead_moving", "lead", "constraint_reappears"⟩
  else if state = "GO_FREE" ∨ state = "GO" then
    ⟨"GO", "corridor_clear", "", "constraint_reappears"⟩
  else if state = "YIELD_PED" then
    ⟨"WAIT", "pedestrian_in_path", "ped", "ped_clears"⟩
  else if state = "STOP_PED" then
    ⟨"STOP", "pedestrian_blocking", "ped", "ped_clears"⟩
  else if state = "STOP_LEAD" then
    ⟨"STOP", "lead_vehicle_stopped", "lead", "lead_moves"⟩
  else if state = "NEGOTIATE" then
    ⟨"WAIT", "negotiating_gap", "", "scene_resolves"⟩
  else
    -- Fallback
    ⟨"WAIT", "unknown_state", "", "state_resolved"⟩

/-- Modelled from the spec: the PlannerSynthesizer fixed table of section 4.6,
applied literally to the given state string. -/
def specSynthesize (state : String) : PlannerInfo :=
  if state = "FOLLOW_QUEUE" then
    ⟨"FOLLOW", "traffic_queue", "lead", "lead_moves"⟩
  else if state = "GO_FOLLOW" then
    ⟨"GO", "lead_moving", "lead", "constraint_reappears"⟩
  else if state = "GO_FREE" ∨ state = "GO" then
    ⟨"GO", "corridor_clear", "", "constraint_reappears"⟩
  else if state = "YIELD_PED" then
    ⟨"WAIT", "pedestrian_in_path", "ped", "ped_clears"⟩
  else if state = "STOP_PED" then
    ⟨"STOP", "pedestrian_blocking", "ped", "ped_clears"⟩
  else if state = "STOP_LEAD" then
    ⟨"STOP", "lead_vehicle_stopped", "lead", "lead_moves"⟩
  else if state = "NEGOTIATE" then
    ⟨"WAIT", "negotiating_gap", "", "scene_resolves"⟩
  else
    ⟨"WAIT", "unknown_state", "", "state_resolved"⟩

/-- The nine states the classifier can return. -/
def classifierStates : List String :=
  ["STOP_PED", "YIELD_PED", "STOP_LEAD", "FOLLOW_QUEUE", "GO_FOLLOW",
   "GO_FREE", "GO", "NEGOTIATE", "UNKNOWN"]

lemma map_world_to_state_eq_spec_of_strip (a y l : String) :
    map_world_to_state a y l = specClassify (pyStrip a) (pyStrip y) (pyStrip l) := by
  unfold map_world_to_state specClassify
  dsimp only
  split_ifs <;> first | rfl | tauto

lemma map_world_to_state_mem (a y l : String) :
    map_world_to_state a y l ∈ classifierStates := by
  unfold map_world_to_state classifierStates
  dsimp only
  split_ifs <;> simp

lemma map_state_to_planner_eq_spec_of_strip (s : String) :
    map_state_to_planner s = specSynthesize (pyStrip s) := by
  unfold map_state_to_planner specSynthesize
  rfl

/-- The eight planner records of the synthesizer table. -/
def plannerRecords : List PlannerInfo :=
  [⟨"FOLLOW", "traffic_queue", "lead", "lead_moves"⟩,
   ⟨"GO", "lead_moving", "lead", "constraint_reappears"⟩,
   ⟨"GO", "corridor_clear", "", "constraint_reappears"⟩,
   ⟨"WAIT", "pedestrian_in_path", "ped", "ped_clears"⟩,
   ⟨"STOP", "pedestrian_blocking", "ped", "ped_clears"⟩,
   ⟨"STOP", "lead_vehicle_stopped", "lead", "lead_moves"⟩,
   ⟨"WAIT", "negotiating_gap", "", "scene_resolves"⟩,
   ⟨"WAIT", "unknown_state", "", "state_resolved"⟩]

/-- C1 (counterexample): the classifier does not agree with the literally-read
priority rules on every string triple: on `(" go ", "none", "none")` the code
strips the padding and returns `GO_FREE`, while no literal rule matches, so the
rules give `UNKNOWN`. -/
theorem map_world_to_state_ne_spec_rules_on_padded_input :
    map_world_to_state " go " "none" "none" ≠ specClassify " go " "none" "none" := by
  decide

/-- C1 (amended): the classifier first strips whitespace from each argument
and then returns exactly the state given by the spec's priority-ordered rules
(so the rules as literally stated hold for all whitespace-free inputs), and it
is total: every string triple yields one of the nine states, with UNKNOWN as
catch-all. -/
theorem map_world_to_state_strips_then_spec_rules :
    (∀ a y l : String,
      map_world_to_state a y l = specClassify (pyStrip a) (pyStrip y) (pyStrip l)) ∧
    (∀ a y l : String, map_world_to_state a y l ∈ classifierStates) :=
  ⟨map_world_to_state_eq_spec_of_strip, map_world_to_state_mem⟩

/-- C2 (counterexample): the synthesizer does not agree with the literally-read
fixed table on every state string: on `" GO "` the code strips the padding and
returns the GO record, while the literal table maps it to the fallback
`unknown_state` record. -/
theorem map_state_to_planner_ne_spec_table_on_padded_input :
    map_state_to_planner " GO " ≠ specSynthesize " GO " := by
  decide

/-- C2 (amended): the synthesizer first strips whitespace from the state and
then returns exactly the spec's fixed-table record (so the table as literally
stated holds for every whitespace-free state string, including the fallback
row), and every state the classifier can produce is mapped to a defined
record of the table. -/
theorem map_state_to_planner_strips_then_spec_table :
    (∀ s : String, map_state_to_planner s = specSynthesize (pyStrip s)) ∧
    (∀ a y l : String,
      map_state_to_planner (map_world_to_state a y l) ∈ plannerRecords) := by
  refine ⟨map_state_to_planner_eq_spec_of_strip, fun a y l => ?_⟩
  have h := map_world_to_state_mem a y l
  unfold classifierStates at h
  simp only [List.mem_cons, List.not_mem_nil, or_false] at h
  rcases h with h | h | h | h | h | h | h | h | h <;> rw [h] <;> decide

/-- C10: both lookup functions are insensitive to surrounding whitespace in
their inputs: classifying a padded triple gives the same state as classifying
the stripped triple, and synthesizing a padded state gives the same planner
record as synthesizing the stripped state. -/
theorem classify_and_synthesize_strip_insensitive :
    (∀ a y l : String,
      map_world_to_state a y l
        = map_world_to_state (pyStrip a) (pyStrip y) (pyStrip l)) ∧
    (∀ s : String, map_state_to_planner s = map_state_to_planner (pyStrip s)) := by
  constructor
  · intro a y l
    rw [map_world_to_state_eq_spec_of_strip, map_world_to_state_eq_spec_of_strip,
      pyStrip_idem, pyStrip_idem, pyStrip_idem]
  · intro s
    rw [map_state_to_planner_eq_spec_of_strip, map_state_to_planner_eq_spec_of_strip,
      pyStrip_idem]

lemma Row.get?_set_self (r : Row) (k : String) (v : Val) :
    (r.set k v).get? k = some v := by
  induction r with
  | nil => simp [Row.set, Row.get?, List.find?]
  | cons p rest ih =>
    by_cases h : p.1 = k
    · simp [Row.set, h, Row.get?, List.find?]
    · simpa [Row.set, h, Row.get?, List.find?] using ih

lemma Row.get?_set_ne (r : Row) (k k' : String) (v : Val) (h : k' ≠ k) :
    (r.set k v).get? k' = r.get? k' := by
  induction r with
  | nil => simp [Row.set, Row.get?, List.find?, Ne.symm h]
  | cons p rest ih =>
    by_cases hp : p.1 = k
    · subst hp
      simp [Row.set, Row.get?, List.find?, Ne.symm h]
    · by_cases hp' : p.1 = k'
      · simp [Row.set, hp, Row.get?, List.find?, hp', h]
      · simpa [Row.set, hp, Row.get?, List.find?, hp'] using ih

lemma Row.getStr_set_self (r : Row) (k : String) (s : String) :
    (r.set k (.str s)).getStr k = s := by
  simp [Row.getStr, Row.get?_set_self]

lemma Row.getStr_set_ne (r : Row) (k k' : String) (v : Val) (h : k' ≠ k) :
    (r.set k v).getStr k' = r.getStr k' := by
  simp [Row.getStr, Row.get?_set_ne r k k' v h]

/-- Read a string off a `Val` (the fields this is applied to are string
columns; a stray integer reads as `""`). -/
def Val.strD : Val → String
  | .str s => s
  | .int _ => ""

/-- The raw world-state map of `load_raw_world`, keyed by (clip, frame_index);
the loader has already stripped the three stored fields. -/
abbrev RawMap := List ((String × Int) × (String × String × String))

/-- Python dict lookup `raw_map.get(key)`. -/
def RawMap.get? (m : RawMap) (k : String × Int) : Option (String × String × String) :=
  (m.find? (fun p => p.1 = k)).map (·.2)

/-- The smoothed triple `reinject_go_short` reads off a row:
`row.get("affordance_smoothed", row.get("affordance", "")).strip()` and
likewise for the other two attributes. -/
def smTriple (row : Row) : String × String × String :=
  (pyStrip (Val.strD (row.getV "affordance_smoothed" (row.getV "affordance" (.str "")))),
   pyStrip (Val.strD (row.getV "yield_to_smoothed" (row.getV "yield_to" (.str "")))),
   pyStrip (Val.strD (row.getV "lead_state_smoothed" (row.getV "lead_state" (.str "")))))

/-- The key `(row["clip"].strip(), int(row["frame_index"]))` used to look a
frame up in the raw map. -/
def rowKey (row : Row) : String × Int :=
  (pyStrip (row.getStr "clip"), row.getInt "frame_index")

/-- One iteration of the `reinject_go_short` loop from
`build_state_and_planner.py`: compute the final triple for a row and store it
in the `*_final` fields. -/
def reinjectRow (raw_map : RawMap) (row : Row) : Row :=
  let sm := smTriple row
  let fin :=
    match RawMap.get? raw_map (rowKey row) with
    | some (a_raw, y_raw, l_raw) =>
      -- Re-inject GO only if raw saw GO, smoothed did not keep GO,
      -- and neither view is yielding to a pedestrian.
      if a_raw = "go" ∧ sm.1 ≠ "go" ∧ sm.2.1 ≠ "ped" ∧ y_raw ≠ "ped"
      then (a_raw, y_raw, l_raw)
      else sm
    | none => sm
  ((row.set "affordance_final" (.str fin.1)).set
      "yield_to_final" (.str fin.2.1)).set
      "lead_state_final" (.str fin.2.2)

/-- `reinject_go_short`: apply the re-injection rule to every smoothed row. -/
def reinject_go_short (raw_map : RawMap) (smoothed_rows : List Row) : List Row :=
  smoothed_rows.map (reinjectRow raw_map)

/-- The final triple stored on a row by `reinject_go_short`. -/
def finalTriple (row : Row) : String × String × String :=
  (row.getStr "affordance_final", row.getStr "yield_to_final",
   row.getStr "lead_state_final")

lemma finalTriple_reinjectRow (raw_map : RawMap) (row : Row) :
    finalTriple (reinjectRow raw_map row) =
      match RawMap.get? raw_map (rowKey row) with
      | some (a_raw, y_raw, l_raw) =>
        if a_raw = "go" ∧ (smTriple row).1 ≠ "go" ∧ (smTriple row).2.1 ≠ "ped"
            ∧ y_raw ≠ "ped"
        then (a_raw, y_raw, l_raw)
        else smTriple row
      | none => smTriple row := by
  unfold finalTriple reinjectRow
  rw [Row.getStr_set_ne _ _ _ _ (by decide), Row.getStr_set_ne _ _ _ _ (by decide),
    Row.getStr_set_self, Row.getStr_set_ne _ _ _ _ (by decide), Row.getStr_set_self,
    Row.getStr_set_self]

/-- C3: per frame, the re-injection stage sets the final triple to the raw
triple exactly when a raw record exists for the frame's (clip, frame_index)
key and raw.affordance = "go", the smoothed affordance ≠ "go", and neither
the smoothed nor the raw view yields to a pedestrian; in every other case,
including a raw lookup miss, the final triple is the smoothed triple.
Consequently, whenever yield_to = "ped" in either view, the final triple is
the smoothed triple. -/
theorem reinject_go_short_final_triple (raw_map : RawMap) (row : Row) :
    (finalTriple (reinjectRow raw_map row) =
      match RawMap.get? raw_map (rowKey row) with
      | some (a_raw, y_raw, l_raw) =>
        if a_raw = "go" ∧ (smTriple row).1 ≠ "go" ∧ (smTriple row).2.1 ≠ "ped"
            ∧ y_raw ≠ "ped"
        then (a_raw, y_raw, l_raw)
        else smTriple row
      | none => smTriple row) ∧
    (((smTriple row).2.1 = "ped" ∨
        (∃ t, RawMap.get? raw_map (rowKey row) = some t ∧ t.2.1 = "ped")) →
      finalTriple (reinjectRow raw_map row) = smTriple row) := by
  refine ⟨finalTriple_reinjectRow raw_map row, fun hped => ?_⟩
  rw [finalTriple_reinjectRow raw_map row]
  cases hh : RawMap.get? raw_map (rowKey row) with
  | none => rfl
  | some t =>
    obtain ⟨a_raw, y_raw, l_raw⟩ := t
    dsimp only
    rcases hped with hped | ⟨t', ht', hty⟩
    · rw [if_neg (by simp [hped])]
    · rw [hh] at ht'
      obtain rfl : t' = (a_raw, y_raw, l_raw) := (Option.some.inj ht').symm
      rw [if_neg (by simp_all)]

/-- Witness for C3: a frame whose smoothed view yields to a pedestrian keeps
its smoothed triple. -/
theorem reinject_go_short_final_triple_witness :
    finalTriple (reinjectRow [] [("yield_to_smoothed", Val.str "ped")]) =
      smTriple [("yield_to_smoothed", Val.str "ped")] :=
  (reinject_go_short_final_triple [] [("yield_to_smoothed", Val.str "ped")]).2
    (Or.inl (by decide))

/-- The running-best fold inside `Counter.most_common(1)`: scanning the
candidates left to right, replace the best only on a strictly greater count,
so the first value attaining the maximal count wins.  `majority_vote`'s
`Counter(non_empty).most_common(1)[0][0]` is this fold over the window values
in order (Counter iterates keys in first-insertion order and `most_common`
sorts stably by descending count). -/
def bestOf (ne : List String) : List String → String → String
  | [], best => best
  | v :: rest, best => bestOf ne rest (if ne.count v > ne.count best then v else best)

/-- `majority_vote` from `temporal_smoothing.py`: most common non-empty value
of the window, `""` if all values are empty; frequency ties are broken by
first occurrence. -/
def majority_vote (values : List String) : String :=
  let non_empty := values.filter (fun v => v ≠ "")
  match non_empty with
  | [] => ""
  | c :: cs => bestOf non_empty cs c

/-- Maximum over `l` of the frequencies (counted in `ne`). -/
def maxCountOn (ne : List String) (l : List String) : Nat :=
  l.foldr (fun v m => Nat.max (ne.count v) m) 0

lemma maxCountOn_cons (ne : List String) (v : String) (l : List String) :
    maxCountOn ne (v :: l) = Nat.max (ne.count v) (maxCountOn ne l) := rfl

lemma find?_cons_ite (p : String → Bool) (a : String) (l : List String) :
    (a :: l).find? p = if p a then some a else l.find? p := by
  cases hp : p a
  · simp [List.find?_cons_of_neg, hp]
  · simp [List.find?_cons_of_pos, hp]

lemma nat_max_absorb_left {a b c : Nat} (h : a ≤ b) :
    Nat.max b (Nat.max a c) = Nat.max b c := by
  simp only [Nat.max_def]
  split_ifs <;> omega

lemma nat_max_absorb_lt {a b c : Nat} (h : a < b) :
    Nat.max a (Nat.max b c) = Nat.max b c := by
  simp only [Nat.max_def]
  split_ifs <;> omega

lemma nat_ne_max_self {a c : Nat} (h : a ≠ Nat.max a c) :
    a < c ∧ Nat.max a c = c := by
  simp only [Nat.max_def] at h ⊢
  split_ifs at h ⊢ <;> omega

/-- The running-best fold returns the first candidate with maximal count. -/
lemma bestOf_eq_find (ne : List String) :
    ∀ (cs : List String) (best : String),
      some (bestOf ne cs best) =
        (best :: cs).find? (fun v => ne.count v = maxCountOn ne (best :: cs)) := by
  intro cs
  induction cs with
  | nil =>
    intro best
    rw [find?_cons_ite, if_pos (by simp [maxCountOn_cons, maxCountOn])]
    rfl
  | cons v rest ih =>
    intro best
    by_cases hvb : ne.count v > ne.count best
    · have h1 : bestOf ne (v :: rest) best = bestOf ne rest v := by
        simp [bestOf, hvb]
      have hmax : maxCountOn ne (best :: v :: rest) = maxCountOn ne (v :: rest) := by
        rw [maxCountOn_cons, maxCountOn_cons (l := rest), nat_max_absorb_lt hvb]
      have hb : ¬ (ne.count best = maxCountOn ne (v :: rest)) := by
        rw [maxCountOn_cons]
        exact Nat.ne_of_lt (Nat.lt_of_lt_of_le hvb (Nat.le_max_left _ _))
      rw [h1, ih v, hmax, find?_cons_ite (a := best), if_neg (by simpa using hb)]
    · have hvb' : ne.count v ≤ ne.count best := Nat.le_of_not_lt hvb
      have h1 : bestOf ne (v :: rest) best = bestOf ne rest best := by
        simp [bestOf, hvb]
      have hmax : maxCountOn ne (best :: v :: rest) = maxCountOn ne (best :: rest) := by
        rw [maxCountOn_cons, maxCountOn_cons (v := v), maxCountOn_cons (v := best),
          nat_max_absorb_left hvb']
      rw [h1, ih best, hmax]
      by_cases hb : ne.count best = maxCountOn ne (best :: rest)
      · rw [find?_cons_ite (a := best), find?_cons_ite (a := best),
          if_pos (by simpa using hb), if_pos (by simpa using hb)]
      · have hlt := nat_ne_max_self (by rw [maxCountOn_cons] at hb; exact hb)
        have hv : ¬ (ne.count v = maxCountOn ne (best :: rest)) := by
          rw [maxCountOn_cons]
          have : ne.count v < maxCountOn ne rest := Nat.lt_of_le_of_lt hvb' hlt.1
          rw [hlt.2]
          exact Nat.ne_of_lt this
        rw [find?_cons_ite (a := best), find?_cons_ite (a := best),
          if_neg (by simpa using hb), if_neg (by simpa using hb),
          find?_cons_ite (a := v), if_neg (by simpa using hv)]

lemma find?_filter_eq (l : List String) (q p : String → Bool) :
    (l.filter q).find? p = l.find? (fun x => q x && p x) := by
  induction l with
  | nil => rfl
  | cons a t ih =>
    cases hq : q a
    · simp [List.filter_cons, hq, ih]
    · cases hp : p a
      · simp [List.filter_cons, hq, find?_cons_ite, hp, ih]
      · simp [List.filter_cons, hq, find?_cons_ite, hp]

/-- C6: `majority_vote` breaks frequency ties by first occurrence: scanning
the window values left to right, the first non-empty value whose frequency
among the non-empty window values is maximal is exactly the returned value
(so in particular, when several values share the highest frequency, the one
seen earliest wins). -/
theorem majority_vote_tie_break_first_occurrence (values : List String)
    (h : values.filter (fun v => v ≠ "") ≠ []) :
    values.find? (fun v =>
        v ≠ "" && ((values.filter (fun w => w ≠ "")).count v
          = maxCountOn (values.filter (fun w => w ≠ ""))
              (values.filter (fun w => w ≠ "")))) =
      some (majority_vote values) := by
  rcases hne : values.filter (fun v => v ≠ "") with _ | ⟨c, cs⟩
  · exact absurd hne h
  · have h1 : majority_vote values = bestOf (c :: cs) cs c := by
      unfold majority_vote
      rw [hne]
    rw [h1, bestOf_eq_find (c :: cs) cs c, ← hne, find?_filter_eq]

/-- Witness for C6: in the window `["b", "c", "c", "b"]` the values "b" and
"c" are tied at frequency 2 and the vote goes to "b", the first seen. -/
theorem majority_vote_tie_break_first_occurrence_witness :
    ["b", "c", "c", "b"].find? (fun v =>
        v ≠ "" && ((["b", "c", "c", "b"].filter (fun w => w ≠ "")).count v
          = maxCountOn (["b", "c", "c", "b"].filter (fun w => w ≠ ""))
              (["b", "c", "c", "b"].filter (fun w => w ≠ "")))) =
      some (majority_vote ["b", "c", "c", "b"]) :=
  majority_vote_tie_break_first_occurrence _ (by decide)

/-- If every window value is empty the vote is `""`. -/
lemma majority_vote_of_all_empty (values : List String)
    (h : values.filter (fun v => v ≠ "") = []) : majority_vote values = "" := by
  unfold majority_vote
  rw [h]

/-- If some window value is non-empty the vote is non-empty. -/
lemma majority_vote_ne_empty (values : List String)
    (h : values.filter (fun v => v ≠ "") ≠ []) : majority_vote values ≠ "" := by
  rcases hne : values.filter (fun v => v ≠ "") with _ | ⟨c, cs⟩
  · exact absurd hne h
  · have h1 : majority_vote values = bestOf (c :: cs) cs c := by
      unfold majority_vote
      rw [hne]
  
    have h2 := bestOf_eq_find (c :: cs) cs c
    have h3 : bestOf (c :: cs) cs c ∈ c :: cs := List.mem_of_find?_eq_some h2.symm
    have h5 : ∀ x, x ∈ c :: cs → x ≠ "" := by
      intro x hx
      rw [← hne] at hx
      simpa using List.of_mem_filter hx
    rw [h1]
    exact h5 _ h3

/-- The window slice `rows[start : end + 1]` of `smooth_sequence`, with
`start = max(0, i - half)` (truncated subtraction) and
`end = min(n - 1, i + half)`. -/
def windowRows (rows : List Row) (i half : Nat) : List Row :=
  let n := rows.length
  let start := i - half
  let stop := Nat.min (n - 1) (i + half)
  (rows.drop start).take (stop + 1 - start)

/-- The body of the `smooth_sequence` loop for index `i`: vote each attribute
over the window and accrete the `*_smoothed` fields onto a copy of row `i`
(`aff_s or row["affordance"]` is the empty-fallback). -/
def smoothRowAt (rows : List Row) (half : Nat) (i : Nat) : Row :=
  let window_rows := windowRows rows i half
  let aff_vals := window_rows.map (fun r => r.getStr "affordance")
  let y_vals := window_rows.map (fun r => r.getStr "yield_to")
  let lead_vals := window_rows.map (fun r => r.getStr "lead_state")
  let aff_s := majority_vote aff_vals
  let y_s := majority_vote y_vals
  let lead_s := majority_vote lead_vals
  let row := rows.getD i []
  ((row.set "affordance_smoothed"
      (.str (if aff_s ≠ "" then aff_s else row.getStr "affordance"))).set
    "yield_to_smoothed" (.str (if y_s ≠ "" then y_s else row.getStr "yield_to"))).set
    "lead_state_smoothed" (.str (if lead_s ≠ "" then lead_s else row.getStr "lead_state"))

/-- `smooth_sequence` from `temporal_smoothing.py`: smooth a clip's rows
(sorted by frame_index) with the given window size. -/
def smooth_sequence (rows : List Row) (window : Nat) : List Row :=
  let half := window / 2
  (List.range rows.length).map (smoothRowAt rows half)

/-- Modelled from the spec: the window of frame `i` for W = 3 is the rows at
the indices `j` with `max(0, i−1) ≤ j ≤ min(n−1, i+1)`. -/
def specWindow (rows : List Row) (i : Nat) : List Row :=
  ((List.range rows.length).filter (fun j => i - 1 ≤ j && j ≤ i + 1)).map
    (fun j => rows.getD j [])

/-- Modelled from the spec: per attribute, the most frequent non-empty value
in the window, falling back to the raw value of row `i` when every window
value is empty. -/
def specSmoothVal (rows : List Row) (i : Nat) (attr : String) : String :=
  let vals := (specWindow rows i).map (fun r => r.getStr attr)
  if vals.all (fun v => v = "") then (rows.getD i []).getStr attr
  else majority_vote vals

/-- Modelled from the spec: row `i` extended with the three smoothed
attributes. -/
def specSmoothRow (rows : List Row) (i : Nat) : Row :=
  (((rows.getD i []).set "affordance_smoothed"
      (.str (specSmoothVal rows i "affordance"))).set
    "yield_to_smoothed" (.str (specSmoothVal rows i "yield_to"))).set
    "lead_state_smoothed" (.str (specSmoothVal rows i "lead_state"))

lemma filter_range_interval (lo hi : Nat) (hlh : lo ≤ hi + 1) :
    ∀ n, (List.range n).filter (fun j => lo ≤ j && j ≤ hi) =
      List.range' lo (Nat.min n (hi + 1) - lo) := by
  intro n
  induction n with
  | zero => simp
  | succ m ih =>
    rw [List.range_succ, List.filter_append, ih]
    by_cases hm : m < lo
    · have h1 : (List.filter (fun j => lo ≤ j && j ≤ hi) [m]) = [] := by
        simp only [List.filter_cons, List.filter_nil]
        rw [if_neg (by simp; omega)]
      rw [h1]
      have h2 : Nat.min m (hi + 1) - lo = 0 := by
        simp only [Nat.min_def]; split_ifs <;> omega
      have h3 : Nat.min (m + 1) (hi + 1) - lo = 0 := by
        simp only [Nat.min_def]; split_ifs <;> omega
      rw [h2, h3]
      simp
    · by_cases hhi : m ≤ hi
      · have h1 : (List.filter (fun j => lo ≤ j && j ≤ hi) [m]) = [m] := by
          simp only [List.filter_cons, List.filter_nil]
          rw [if_pos (by simp; omega)]
        rw [h1]
        have h2 : Nat.min m (hi + 1) = m := by
          simp only [Nat.min_def]; split_ifs <;> omega
        have h3 : Nat.min (m + 1) (hi + 1) = m + 1 := by
          simp only [Nat.min_def]; split_ifs <;> omega
        rw [h2, h3]
        have h4 : m + 1 - lo = (m - lo) + 1 := by omega
        rw [h4, List.range'_concat]
        have h5 : lo + 1 * (m - lo) = m := by omega
        rw [h5]
      · have h1 : (List.filter (fun j => lo ≤ j && j ≤ hi) [m]) = [] := by
          simp only [List.filter_cons, List.filter_nil]
          rw [if_neg (by simp; omega)]
        rw [h1]
        have h2 : Nat.min m (hi + 1) = Nat.min (m + 1) (hi + 1) := by
          simp only [Nat.min_def]; split_ifs <;> omega
        rw [h2]
        simp

lemma map_getD_range' (rows : List Row) :
    ∀ (len lo : Nat), lo + len ≤ rows.length →
      (List.range' lo len).map (fun j => rows.getD j ([] : Row)) =
        (rows.drop lo).take len := by
  intro len
  induction len with
  | zero => simp
  | succ k ih =>
    intro lo hlen
    have hlt : lo < rows.length := by omega
    rw [List.range'_succ, List.map_cons, ih (lo + 1) (by omega),
      List.drop_eq_getElem_cons hlt, List.take_succ_cons,
      List.getD_eq_getElem rows [] hlt]

lemma windowRows_eq_specWindow (rows : List Row) (i : Nat) (h : i < rows.length) :
    windowRows rows i 1 = specWindow rows i := by
  unfold windowRows specWindow
  rw [filter_range_interval (i - 1) (i + 1) (by omega) rows.length]
  rw [map_getD_range' rows _ (i - 1)
    (by simp only [Nat.min_def]; split_ifs <;> omega)]
  have h1 : Nat.min rows.length (i + 1 + 1) - (i - 1)
      = Nat.min (rows.length - 1) (i + 1) + 1 - (i - 1) := by
    simp only [Nat.min_def]; split_ifs <;> omega
  rw [h1]

lemma ite_majority_eq_spec (vals : List String) (d : String) :
    (if majority_vote vals ≠ "" then majority_vote vals else d)
      = (if vals.all (fun v => v = "") then d else majority_vote vals) := by
  by_cases hall : vals.all (fun v => v = "")
  · have hf : vals.filter (fun v => v ≠ "") = [] := by
      rw [List.filter_eq_nil_iff]
      intro a ha
      have := List.all_eq_true.mp hall a ha
      simpa using this
    rw [if_pos hall, majority_vote_of_all_empty vals hf]
    simp
  · have hf : vals.filter (fun v => v ≠ "") ≠ [] := by
      intro hnil
      apply hall
      rw [List.filter_eq_nil_iff] at hnil
      rw [List.all_eq_true]
      intro a ha
      have := hnil a ha
      simpa using this
    rw [if_neg hall, if_pos (majority_vote_ne_empty vals hf)]

/-- C5: for window size 3, the smoother returns one row per input row in
input order, and row `i` of the output is input row `i` extended with, per
attribute, the most frequent non-empty value over the window
`[max(0, i−1), min(n−1, i+1)]`, falling back to row `i`'s raw value when all
window values are empty. -/
theorem smooth_sequence_majority_window_spec (rows : List Row) :
    smooth_sequence rows 3 = (List.range rows.length).map (specSmoothRow rows) := by
  unfold smooth_sequence
  apply List.map_congr_left
  intro i hi
  have hlt : i < rows.length := List.mem_range.mp hi
  unfold smoothRowAt specSmoothRow specSmoothVal
  dsimp only
  rw [windowRows_eq_specWindow rows i hlt]
  rw [ite_majority_eq_spec, ite_majority_eq_spec, ite_majority_eq_spec]

/-- `int(row["frame_index"])` of a row (already an integer after loading). -/
def fiOf (r : Row) : Int := r.getInt "frame_index"

/-- The classified state of a row's final triple (`segment_states` loop). -/
def stateOfRow (r : Row) : String :=
  map_world_to_state (r.getStr "affordance_final") (r.getStr "yield_to_final")
    (r.getStr "lead_state_final")

/-- The smoothed-triple key of `segment_clip`. -/
def phaseKey (r : Row) : String × String × String :=
  (r.getStr "affordance_smoothed", r.getStr "yield_to_smoothed",
   r.getStr "lead_state_smoothed")

/-- Helper for maximal-run splitting: `runsCore R prev l` returns the
elements of `l` that extend the run currently ending at `prev`, together
with the later runs. -/
def runsCore {α : Type} (R : α → α → Bool) : α → List α → List α × List (List α)
  | _, [] => ([], [])
  | prev, x :: xs =>
    let p := runsCore R x xs
    if R prev x then (x :: p.1, p.2) else ([], (x :: p.1) :: p.2)

/-- Modelled from the spec: split a list into maximal runs such that two
consecutive elements stay in the same run exactly when `R` relates them. -/
def runsBy {α : Type} (R : α → α → Bool) : List α → List (List α)
  | [] => []
  | a :: l => (a :: (runsCore R a l).1) :: (runsCore R a l).2

lemma runsCore_flatten {α : Type} (R : α → α → Bool) :
    ∀ (l : List α) (prev : α),
      (runsCore R prev l).1 ++ ((runsCore R prev l).2).flatten = l := by
  intro l
  induction l with
  | nil => intro prev; simp [runsCore]
  | cons x xs ih =>
    intro prev
    simp only [runsCore]
    by_cases h : R prev x
    · simp only [if_pos h, List.cons_append]
      rw [ih x]
    · simp only [if_neg h, List.nil_append, List.flatten_cons, List.cons_append]
      rw [ih x]

lemma runsBy_flatten {α : Type} (R : α → α → Bool) (l : List α) :
    (runsBy R l).flatten = l := by
  cases l with
  | nil => rfl
  | cons a t =>
    simp only [runsBy, List.flatten_cons, List.cons_append]
    rw [runsCore_flatten R t a]

lemma runsCore_chain {α : Type} (R : α → α → Bool) :
    ∀ (l : List α) (prev : α),
      List.Chain' (fun a b => R a b = true) (prev :: (runsCore R prev l).1) ∧
      ∀ run ∈ (runsCore R prev l).2,
        run ≠ [] ∧ List.Chain' (fun a b => R a b = true) run := by
  intro l
  induction l with
  | nil => intro prev; simp [runsCore]
  | cons x xs ih =>
    intro prev
    obtain ⟨ihc, ihr⟩ := ih x
    simp only [runsCore]
    by_cases h : R prev x
    · simp only [if_pos h]
      exact ⟨List.chain'_cons.mpr ⟨h, ihc⟩, ihr⟩
    · simp only [if_neg h]
      constructor
      · simp
      · intro run hrun
        rcases List.mem_cons.mp hrun with rfl | hmem
        · exact ⟨by simp, ihc⟩
        · exact ihr run hmem

lemma runsCore_break {α : Type} (R : α → α → Bool) :
    ∀ (l : List α) (prev : α),
      List.Chain' (fun u v => ∀ x ∈ u.getLast?, ∀ y ∈ v.head?, R x y = false)
        ((prev :: (runsCore R prev l).1) :: (runsCore R prev l).2) := by
  intro l
  induction l with
  | nil => intro prev; simp [runsCore]
  | cons x xs ih =>
    intro prev
    have ihx := ih x
    simp only [runsCore]
    by_cases h : R prev x
    · simp only [if_pos h]
      cases hr : (runsCore R x xs).2 with
      | nil => simp
      | cons r rs =>
        rw [hr] at ihx
        rw [List.chain'_cons] at ihx ⊢
        refine ⟨?_, ihx.2⟩
        intro a ha y hy
        apply ihx.1 a _ y hy
        rwa [List.getLast?_cons_cons] at ha
    · simp only [if_neg h]
      rw [List.chain'_cons]
      refine ⟨?_, ihx⟩
      intro a ha y hy
      simp only [List.getLast?_singleton, Option.mem_some_iff] at ha
      simp only [List.head?_cons, Option.mem_some_iff] at hy
      subst ha
      subst hy
      simpa using h

lemma runsBy_chain {α : Type} (R : α → α → Bool) (l : List α) :
    ∀ run ∈ runsBy R l, run ≠ [] ∧ List.Chain' (fun a b => R a b = true) run := by
  cases l with
  | nil => simp [runsBy]
  | cons a t =>
    intro run hrun
    obtain ⟨hc, hr⟩ := runsCore_chain R t a
    rcases List.mem_cons.mp hrun with rfl | hmem
    · exact ⟨by simp, hc⟩
    · exact hr run hmem

lemma runsBy_break {α : Type} (R : α → α → Bool) (l : List α) :
    List.Chain' (fun u v => ∀ x ∈ u.getLast?, ∀ y ∈ v.head?, R x y = false)
      (runsBy R l) := by
  cases l with
  | nil => simp [runsBy]
  | cons a t => exact runsCore_break R t a

/-- A state-machine segment row of `segment_states`. -/
structure Seg where
  clip : String
  segment_id : Nat
  start_frame : Int
  end_frame : Int
  state : String
  affordance : String
  yield_to : String
  lead_state : String
deriving DecidableEq, Repr

/-- The loop state of `segment_states`: current state, start/end frame and
the canonical (first) triple of the open segment. -/
structure CurSeg where
  state : String
  start : Int
  stop : Int
  aff : String
  y : String
  l : String
deriving DecidableEq, Repr

/-- Open a new segment at row `r`. -/
def initCur (r : Row) : CurSeg :=
  ⟨stateOfRow r, fiOf r, fiOf r, r.getStr "affordance_final",
   r.getStr "yield_to_final", r.getStr "lead_state_final"⟩

/-- Close the open segment into an emitted segment row. -/
def closeSeg (clip : String) (sid : Nat) (cur : CurSeg) : Seg :=
  ⟨clip, sid, cur.start, cur.stop, cur.state, cur.aff, cur.y, cur.l⟩

/-- The `segment_states` per-clip loop after the first row initialized the
open segment: extend on same state and contiguous frame_index, else close
and start a new segment with the next id. -/
def segsFrom (clip : String) (sid : Nat) (cur : CurSeg) : List Row → List Seg
  | [] => [closeSeg clip sid cur]
  | r :: rest =>
    if stateOfRow r = cur.state ∧ fiOf r = cur.stop + 1 then
      segsFrom clip sid { cur with stop := fiOf r } rest
    else
      closeSeg clip sid cur :: segsFrom clip (sid + 1) (initCur r) rest

/-- `segment_states` restricted to one clip's (sorted) rows. -/
def segment_states_clip (clip : String) (rows : List Row) : List Seg :=
  match rows with
  | [] => []
  | r :: rest => segsFrom clip 0 (initCur r) rest

/-- The run relation of the state segmenter: same classified state and
frame_index difference exactly 1. -/
def stateRun (r1 r2 : Row) : Bool :=
  decide (stateOfRow r2 = stateOfRow r1) && decide (fiOf r2 = fiOf r1 + 1)

/-- frame_index of the last row of `c`, or `d` when `c` is empty. -/
def lastFiD (d : Int) (c : List Row) : Int :=
  match c.getLast? with
  | some r => fiOf r
  | none => d

/-- Modelled from the spec: the segment row of one maximal run (id, first
member's frame as start and canonical state/triple, last member's frame as
end). -/
def mkStateSeg (clip : String) (p : Nat × List Row) : Seg :=
  match p.2 with
  | [] => ⟨clip, p.1, 0, 0, "", "", "", ""⟩
  | h :: t =>
    ⟨clip, p.1, fiOf h, lastFiD (fiOf h) t, stateOfRow h,
     h.getStr "affordance_final", h.getStr "yield_to_final",
     h.getStr "lead_state_final"⟩

/-- Modelled from the spec: the state segments are the maximal runs of the
state-run relation, enumerated from 0. -/
def stateRunsSpec (clip : String) (rows : List Row) : List Seg :=
  ((runsBy stateRun rows).enum).map (mkStateSeg clip)

lemma lastFiD_cons (d : Int) (r : Row) (c : List Row) :
    lastFiD d (r :: c) = lastFiD (fiOf r) c := by
  cases c with
  | nil => rfl
  | cons x t =>
    unfold lastFiD
    rw [List.getLast?_cons_cons]
    obtain ⟨y, hy⟩ := Option.isSome_iff_exists.mp
      (List.getLast?_isSome.mpr (List.cons_ne_nil x t))
    rw [hy]

lemma segsFrom_eq_runs (clip : String) :
    ∀ (rest : List Row) (sid : Nat) (cur : CurSeg) (prev : Row),
      cur.state = stateOfRow prev → cur.stop = fiOf prev →
      segsFrom clip sid cur rest =
        closeSeg clip sid
            { cur with stop := lastFiD cur.stop (runsCore stateRun prev rest).1 }
          :: ((runsCore stateRun prev rest).2.enumFrom (sid + 1)).map
              (mkStateSeg clip) := by
  intro rest
  induction rest with
  | nil =>
    intro sid cur prev hst hstop
    simp [segsFrom, runsCore, lastFiD]
  | cons r rest ih =>
    intro sid cur prev hst hstop
    by_cases hcond : stateOfRow r = cur.state ∧ fiOf r = cur.stop + 1
    · have h1 : stateOfRow r = stateOfRow prev := hcond.1.trans hst
      have h2 : fiOf r = fiOf prev + 1 := hcond.2.trans (by rw [hstop])
      have hR : stateRun prev r = true := by
        unfold stateRun
        simp [h1, h2]
      have hlhs : segsFrom clip sid cur (r :: rest)
          = segsFrom clip sid { cur with stop := fiOf r } rest := by
        simp only [segsFrom]
        rw [if_pos hcond]
      have hrhs : runsCore stateRun prev (r :: rest)
          = (r :: (runsCore stateRun r rest).1, (runsCore stateRun r rest).2) := by
        simp only [runsCore]
        rw [if_pos hR]
      rw [hlhs, hrhs, ih sid { cur with stop := fiOf r } r hcond.1.symm rfl]
      rw [lastFiD_cons]
    · have hR : stateRun prev r = false := by
        unfold stateRun
        have hcond' : ¬(stateOfRow r = stateOfRow prev ∧ fiOf r = fiOf prev + 1) := by
          rw [← hst, ← hstop]
          exact hcond
        rcases not_and_or.mp hcond' with h1 | h1 <;> simp [h1]
      have hlhs : segsFrom clip sid cur (r :: rest)
          = closeSeg clip sid cur :: segsFrom clip (sid + 1) (initCur r) rest := by
        simp only [segsFrom]
        rw [if_neg hcond]
      have hrhs : runsCore stateRun prev (r :: rest)
          = ([], (r :: (runsCore stateRun r rest).1) :: (runsCore stateRun r rest).2) := by
        simp only [runsCore]
        rw [if_neg (by simp [hR])]
      rw [hlhs, hrhs, ih (sid + 1) (initCur r) r rfl rfl]
      rfl
  
lemma segment_states_clip_eq_spec (clip : String) (rows : List Row) :
    segment_states_clip clip rows = stateRunsSpec clip rows := by
  cases rows with
  | nil => rfl
  | cons r rest =>
    have hl : segment_states_clip clip (r :: rest) = segsFrom clip 0 (initCur r) rest := rfl
    have hr : stateRunsSpec clip (r :: rest)
        = mkStateSeg clip (0, r :: (runsCore stateRun r rest).1)
          :: ((runsCore stateRun r rest).2.enumFrom 1).map (mkStateSeg clip) := rfl
    rw [hl, hr, segsFrom_eq_runs clip rest 0 (initCur r) r rfl rfl]
    rfl

/-- A phase segment row of `segment_clip` (CSV columns `start`/`end` are
`start_frame`/`end_frame`). -/
structure PhaseSeg where
  start_frame : Int
  end_frame : Int
  affordance : String
  yield_to : String
  lead_state : String
deriving DecidableEq, Repr

/-- The loop state of `segment_clip`: key of the open run and its bounds. -/
structure CurPhase where
  key : String × String × String
  start : Int
  stop : Int
deriving DecidableEq, Repr

/-- Close the open phase run into an emitted segment. -/
def closePhase (cur : CurPhase) : PhaseSeg :=
  ⟨cur.start, cur.stop, cur.key.1, cur.key.2.1, cur.key.2.2⟩

/-- The `segment_clip` loop of `segment_world_state.py` after the first row
seeded the open run: extend on same smoothed key and contiguous frame_index,
else close and start a new run. -/
def phaseSegsFrom (cur : CurPhase) : List Row → List PhaseSeg
  | [] => [closePhase cur]
  | r :: rest =>
    if phaseKey r = cur.key ∧ fiOf r = cur.stop + 1 then
      phaseSegsFrom { cur with stop := fiOf r } rest
    else
      closePhase cur :: phaseSegsFrom ⟨phaseKey r, fiOf r, fiOf r⟩ rest

/-- `segment_clip` from `segment_world_state.py`. -/
def segment_clip (rows : List Row) : List PhaseSeg :=
  match rows with
  | [] => []
  | r :: rest => phaseSegsFrom ⟨phaseKey r, fiOf r, fiOf r⟩ rest

/-- The run relation of the phase segmenter: same smoothed triple and
frame_index difference exactly 1. -/
def phaseRun (r1 r2 : Row) : Bool :=
  decide (phaseKey r2 = phaseKey r1) && decide (fiOf r2 = fiOf r1 + 1)

/-- Modelled from the spec: the phase segment of one maximal run. -/
def mkPhaseSeg (run : List Row) : PhaseSeg :=
  match run with
  | [] => ⟨0, 0, "", "", ""⟩
  | h :: t =>
    ⟨fiOf h, lastFiD (fiOf h) t, (phaseKey h).1, (phaseKey h).2.1, (phaseKey h).2.2⟩

/-- Modelled from the spec: the phase segments are the maximal runs of the
phase-run relation. -/
def phaseRunsSpec (rows : List Row) : List PhaseSeg :=
  (runsBy phaseRun rows).map mkPhaseSeg

lemma phaseSegsFrom_eq_runs :
    ∀ (rest : List Row) (cur : CurPhase) (prev : Row),
      cur.key = phaseKey prev → cur.stop = fiOf prev →
      phaseSegsFrom cur rest =
        closePhase { cur with stop := lastFiD cur.stop (runsCore phaseRun prev rest).1 }
          :: ((runsCore phaseRun prev rest).2).map mkPhaseSeg := by
  intro rest
  induction rest with
  | nil =>
    intro cur prev hk hstop
    simp [phaseSegsFrom, runsCore, lastFiD]
  | cons r rest ih =>
    intro cur prev hk hstop
    by_cases hcond : phaseKey r = cur.key ∧ fiOf r = cur.stop + 1
    · have hR : phaseRun prev r = true := by
        unfold phaseRun
        simp [hcond.1.trans hk, hcond.2.trans (by rw [hstop])]
      have hlhs : phaseSegsFrom cur (r :: rest)
          = phaseSegsFrom { cur with stop := fiOf r } rest := by
        simp only [phaseSegsFrom]
        rw [if_pos hcond]
      have hrhs : runsCore phaseRun prev (r :: rest)
          = (r :: (runsCore phaseRun r rest).1, (runsCore phaseRun r rest).2) := by
        simp only [runsCore]
        rw [if_pos hR]
      rw [hlhs, hrhs, ih { cur with stop := fiOf r } r hcond.1.symm rfl]
      rw [lastFiD_cons]
    · have hR : phaseRun prev r = false := by
        unfold phaseRun
        have hcond' : ¬(phaseKey r = phaseKey prev ∧ fiOf r = fiOf prev + 1) := by
          rw [← hk, ← hstop]
          exact hcond
        rcases not_and_or.mp hcond' with h1 | h1 <;> simp [h1]
      have hlhs : phaseSegsFrom cur (r :: rest)
          = closePhase cur :: phaseSegsFrom ⟨phaseKey r, fiOf r, fiOf r⟩ rest := by
        simp only [phaseSegsFrom]
        rw [if_neg hcond]
      have hrhs : runsCore phaseRun prev (r :: rest)
          = ([], (r :: (runsCore phaseRun r rest).1) :: (runsCore phaseRun r rest).2) := by
        simp only [runsCore]
        rw [if_neg (by simp [hR])]
      rw [hlhs, hrhs, ih ⟨phaseKey r, fiOf r, fiOf r⟩ r rfl rfl]
      rfl

lemma segment_clip_eq_spec (rows : List Row) :
    segment_clip rows = phaseRunsSpec rows := by
  cases rows with
  | nil => rfl
  | cons r rest =>
    have hl : segment_clip (r :: rest)
        = phaseSegsFrom ⟨phaseKey r, fiOf r, fiOf r⟩ rest := rfl
    have hr : phaseRunsSpec (r :: rest)
        = mkPhaseSeg (r :: (runsCore phaseRun r rest).1)
          :: ((runsCore phaseRun r rest).2).map mkPhaseSeg := rfl
    rw [hl, hr, phaseSegsFrom_eq_runs rest ⟨phaseKey r, fiOf r, fiOf r⟩ r rfl rfl]
    rfl

/-- C4: both segmenters split a clip's row list into exactly the maximal runs
of their key relation: `segment_clip` (keyed on the smoothed triple) and
`segment_states` (keyed on the classified final-triple state) equal the
run-splitting specification, whose runs concatenate back to the input, are
internally chained by the relation (equal key AND frame_index step of exactly
1), and are separated exactly where the relation fails — so a key change or a
frame_index gap starts a new segment even if the key matches an earlier one. -/
theorem segmenters_split_maximal_runs :
    (∀ rows : List Row, segment_clip rows = phaseRunsSpec rows) ∧
    (∀ (clip : String) (rows : List Row),
        segment_states_clip clip rows = stateRunsSpec clip rows) ∧
    (∀ (α : Type) (R : α → α → Bool) (l : List α),
        (runsBy R l).flatten = l ∧
        (∀ run ∈ runsBy R l, run ≠ [] ∧ run.Chain' (fun a b => R a b = true)) ∧
        (runsBy R l).Chain' (fun u v =>
          ∀ x ∈ u.getLast?, ∀ y ∈ v.head?, R x y = false)) :=
  ⟨segment_clip_eq_spec, segment_states_clip_eq_spec,
   fun α R l => ⟨runsBy_flatten R l, runsBy_chain R l, runsBy_break R l⟩⟩

/-- The integers `a, a+1, ..., a+len-1`. -/
def intRangeLen (a : Int) (len : Nat) : List Int :=
  (List.range len).map (fun (k : Nat) => a + (k : Int))

/-- The inclusive integer range `[a, b]` (empty when `b < a`). -/
def intRange (a b : Int) : List Int :=
  intRangeLen a (b - a + 1).toNat

lemma intRangeLen_succ (a : Int) (len : Nat) :
    intRangeLen a (len + 1) = a :: intRangeLen (a + 1) len := by
  unfold intRangeLen
  rw [List.range_succ_eq_map, List.map_cons, List.map_map]
  congr 1
  · simp
  · apply List.map_congr_left
    intro k _
    simp only [Function.comp_apply, Nat.succ_eq_add_one]
    push_cast
    ring

/-- Within a run of a relation that forces `frame_index` to step by exactly 1,
the frame indices are the consecutive integers from the first row's index,
and the last row's index is the first plus the length minus one. -/
lemma chain_fi_map (R : Row → Row → Bool)
    (HR : ∀ a b, R a b = true → fiOf b = fiOf a + 1) :
    ∀ (t : List Row) (h : Row),
      List.Chain' (fun a b => R a b = true) (h :: t) →
      (h :: t).map fiOf = intRangeLen (fiOf h) (t.length + 1) ∧
      lastFiD (fiOf h) t = fiOf h + t.length := by
  intro t
  induction t with
  | nil =>
    intro h _
    constructor
    · simp [intRangeLen, List.range_succ]
    · simp [lastFiD]
  | cons r t' ih =>
    intro h hchain
    rw [List.chain'_cons] at hchain
    have hfi : fiOf r = fiOf h + 1 := HR h r hchain.1
    obtain ⟨ihmap, ihlast⟩ := ih r hchain.2
    constructor
    · rw [List.map_cons, ihmap, hfi, List.length_cons,
        intRangeLen_succ (fiOf h) (t'.length + 1)]
    · rw [lastFiD_cons, ihlast, hfi, List.length_cons]
      push_cast
      ring

lemma stateRun_fi (a b : Row) (h : stateRun a b = true) : fiOf b = fiOf a + 1 := by
  unfold stateRun at h
  simp at h
  exact h.2

lemma phaseRun_fi (a b : Row) (h : phaseRun a b = true) : fiOf b = fiOf a + 1 := by
  unfold phaseRun at h
  simp at h
  exact h.2

lemma mkStateSeg_id (clip : String) (p : Nat × List Row) :
    (mkStateSeg clip p).segment_id = p.1 := by
  obtain ⟨i, run⟩ := p
  cases run <;> rfl

lemma map_segId_enumFrom (clip : String) :
    ∀ (L : List (List Row)) (n : Nat),
      (((L.enumFrom n).map (mkStateSeg clip)).map Seg.segment_id)
        = List.range' n L.length := by
  intro L
  induction L with
  | nil => intro n; rfl
  | cons run L ih =>
    intro n
    rw [List.enumFrom_cons, List.map_cons, List.map_cons, ih (n + 1), mkStateSeg_id,
      List.length_cons, List.range'_succ]

lemma mem_enumFrom_snd {β : Type} :
    ∀ (L : List β) (n : Nat) (p : Nat × β), p ∈ L.enumFrom n → p.2 ∈ L := by
  intro L
  induction L with
  | nil => intro n p h; simp [List.enumFrom] at h
  | cons b L ih =>
    intro n p h
    rw [List.enumFrom_cons] at h
    rcases List.mem_cons.mp h with rfl | h
    · exact List.mem_cons_self _ _
    · exact List.mem_cons_of_mem _ (ih (n + 1) p h)

lemma stateSeg_facts (clip : String) (rows : List Row) (i : Nat) (run : List Row)
    (hrun : run ∈ runsBy stateRun rows) :
    (mkStateSeg clip (i, run)).start_frame ≤ (mkStateSeg clip (i, run)).end_frame ∧
    intRange (mkStateSeg clip (i, run)).start_frame (mkStateSeg clip (i, run)).end_frame
      = run.map fiOf := by
  obtain ⟨hne, hchain⟩ := runsBy_chain stateRun rows run hrun
  cases run with
  | nil => exact absurd rfl hne
  | cons h t =>
    obtain ⟨hmap, hlast⟩ := chain_fi_map stateRun stateRun_fi t h hchain
    constructor
    · show fiOf h ≤ lastFiD (fiOf h) t
      rw [hlast]
      omega
    · show intRange (fiOf h) (lastFiD (fiOf h) t) = _
      rw [hlast]
      unfold intRange
      have ht : (fiOf h + (t.length : Int) - fiOf h + 1).toNat = t.length + 1 := by omega
      rw [ht, ← hmap]

lemma phaseSeg_facts (rows : List Row) (run : List Row)
    (hrun : run ∈ runsBy phaseRun rows) :
    (mkPhaseSeg run).start_frame ≤ (mkPhaseSeg run).end_frame ∧
    intRange (mkPhaseSeg run).start_frame (mkPhaseSeg run).end_frame
      = run.map fiOf := by
  obtain ⟨hne, hchain⟩ := runsBy_chain phaseRun rows run hrun
  cases run with
  | nil => exact absurd rfl hne
  | cons h t =>
    obtain ⟨hmap, hlast⟩ := chain_fi_map phaseRun phaseRun_fi t h hchain
    constructor
    · show fiOf h ≤ lastFiD (fiOf h) t
      rw [hlast]
      omega
    · show intRange (fiOf h) (lastFiD (fiOf h) t) = _
      rw [hlast]
      unfold intRange
      have ht : (fiOf h + (t.length : Int) - fiOf h + 1).toNat = t.length + 1 := by omega
      rw [ht, ← hmap]

lemma flatMap_enumFrom {β γ : Type} (g : β → List γ) :
    ∀ (L : List β) (n : Nat),
      (L.enumFrom n).flatMap (fun p => g p.2) = L.flatMap g := by
  intro L
  induction L with
  | nil => intro n; rfl
  | cons b L ih =>
    intro n
    rw [List.enumFrom_cons, List.flatMap_cons, List.flatMap_cons, ih (n + 1)]

lemma state_coverage (clip : String) (rows : List Row) :
    (stateRunsSpec clip rows).flatMap (fun s => intRange s.start_frame s.end_frame)
      = rows.map fiOf := by
  unfold stateRunsSpec
  rw [List.flatMap_map]
  have h1 : (fun p => intRange (mkStateSeg clip p).start_frame
        (mkStateSeg clip p).end_frame)
      = fun p : Nat × List Row => intRange (mkStateSeg clip (0, p.2)).start_frame
        (mkStateSeg clip (0, p.2)).end_frame := by
    funext p
    obtain ⟨i, run⟩ := p
    cases run <;> rfl
  rw [show (runsBy stateRun rows).enum = (runsBy stateRun rows).enumFrom 0 from rfl,
    h1, flatMap_enumFrom (fun run => intRange (mkStateSeg clip (0, run)).start_frame
      (mkStateSeg clip (0, run)).end_frame)]
  rw [List.flatMap_def]
  have h2 : (runsBy stateRun rows).map
        (fun run => intRange (mkStateSeg clip (0, run)).start_frame
          (mkStateSeg clip (0, run)).end_frame)
      = (runsBy stateRun rows).map (List.map fiOf) := by
    apply List.map_congr_left
    intro run hrun
    exact (stateSeg_facts clip rows 0 run hrun).2
  rw [h2, ← List.map_flatten, runsBy_flatten]

lemma phase_coverage (rows : List Row) :
    (phaseRunsSpec rows).flatMap (fun s => intRange s.start_frame s.end_frame)
      = rows.map fiOf := by
  unfold phaseRunsSpec
  rw [List.flatMap_map, List.flatMap_def]
  have h2 : (runsBy phaseRun rows).map
        (fun run => intRange (mkPhaseSeg run).start_frame (mkPhaseSeg run).end_frame)
      = (runsBy phaseRun rows).map (List.map fiOf) := by
    apply List.map_congr_left
    intro run hrun
    exact (phaseSeg_facts rows run hrun).2
  rw [h2, ← List.map_flatten, runsBy_flatten]

lemma left_mem_intRange {a b : Int} (h : a ≤ b) : a ∈ intRange a b := by
  unfold intRange intRangeLen
  refine List.mem_map.mpr ⟨0, List.mem_range.mpr ?_, by simp⟩
  omega

lemma stateRunsSpec_start_le (clip : String) (rows : List Row) :
    ∀ s ∈ stateRunsSpec clip rows, s.start_frame ≤ s.end_frame := by
  intro s hs
  unfold stateRunsSpec at hs
  obtain ⟨p, hp, rfl⟩ := List.mem_map.mp hs
  have h2 := mem_enumFrom_snd _ _ _ hp
  have h3 := (stateSeg_facts clip rows p.1 p.2 h2).1
  simpa using h3

lemma phaseRunsSpec_start_le (rows : List Row) :
    ∀ s ∈ phaseRunsSpec rows, s.start_frame ≤ s.end_frame := by
  intro s hs
  unfold phaseRunsSpec at hs
  obtain ⟨run, hrun, rfl⟩ := List.mem_map.mp hs
  exact (phaseSeg_facts rows run hrun).1

lemma state_pairwise (clip : String) (rows : List Row)
    (hs : (rows.map fiOf).Chain' (· < ·)) :
    (stateRunsSpec clip rows).Pairwise
      (fun u v => u.start_frame < v.start_frame) := by
  have hp : (rows.map fiOf).Pairwise (· < ·) := List.chain'_iff_pairwise.mp hs
  rw [← state_coverage clip rows, List.flatMap_def] at hp
  have h2 := (List.pairwise_flatten.mp hp).2
  have h3 := List.pairwise_map.mp h2
  refine h3.imp_of_mem ?_
  intro u v hu hv hrel
  exact hrel u.start_frame (left_mem_intRange (stateRunsSpec_start_le clip rows u hu))
    v.start_frame (left_mem_intRange (stateRunsSpec_start_le clip rows v hv))

lemma phase_pairwise (rows : List Row)
    (hs : (rows.map fiOf).Chain' (· < ·)) :
    (phaseRunsSpec rows).Pairwise
      (fun u v => u.start_frame < v.start_frame) := by
  have hp : (rows.map fiOf).Pairwise (· < ·) := List.chain'_iff_pairwise.mp hs
  rw [← phase_coverage rows, List.flatMap_def] at hp
  have h2 := (List.pairwise_flatten.mp hp).2
  have h3 := List.pairwise_map.mp h2
  refine h3.imp_of_mem ?_
  intro u v hu hv hrel
  exact hrel u.start_frame (left_mem_intRange (phaseRunsSpec_start_le rows u hu))
    v.start_frame (left_mem_intRange (phaseRunsSpec_start_le rows v hv))

/-- The C7 invariant bundle for a clip's state-machine segments: ids are
exactly `0..n-1` in order, segment order follows start_frame order, every
segment has `start ≤ end`, and the inclusive frame ranges concatenate to
exactly the clip's frame_index sequence. -/
def stateSegsInvariants (segs : List Seg) (fis : List Int) : Prop :=
  segs.map Seg.segment_id = List.range segs.length ∧
  segs.Pairwise (fun u v => u.start_frame < v.start_frame) ∧
  (∀ s ∈ segs, s.start_frame ≤ s.end_frame) ∧
  segs.flatMap (fun s => intRange s.start_frame s.end_frame) = fis

/-- The C7 invariant bundle for a clip's phase segments (their ids are
assigned by `enumerate` in the writer loop). -/
def phaseSegsInvariants (segs : List PhaseSeg) (fis : List Int) : Prop :=
  segs.enum.map Prod.fst = List.range segs.length ∧
  segs.Pairwise (fun u v => u.start_frame < v.start_frame) ∧
  (∀ s ∈ segs, s.start_frame ≤ s.end_frame) ∧
  segs.flatMap (fun s => intRange s.start_frame s.end_frame) = fis

lemma stateRunsSpec_ids (clip : String) (rows : List Row) :
    (stateRunsSpec clip rows).map Seg.segment_id
      = List.range (stateRunsSpec clip rows).length := by
  unfold stateRunsSpec
  rw [show (runsBy stateRun rows).enum = (runsBy stateRun rows).enumFrom 0 from rfl,
    map_segId_enumFrom clip _ 0, List.length_map, List.enumFrom_length,
    ← List.range_eq_range']

/-- C7: for a clip whose rows are strictly sorted by frame_index (the code
sorts, and the claim assumes pairwise-distinct indices), both segmenters emit
segment ids exactly `0..n-1` with id order equal to start_frame order, every
segment satisfies `start ≤ end`, and the inclusive segment ranges
reconstruct the clip's frame_index multiset exactly. -/
theorem segment_ids_order_and_coverage (clip : String) (rows : List Row)
    (hsorted : (rows.map fiOf).Chain' (· < ·)) :
    stateSegsInvariants (segment_states_clip clip rows) (rows.map fiOf) ∧
    phaseSegsInvariants (segment_clip rows) (rows.map fiOf) := by
  rw [segment_states_clip_eq_spec, segment_clip_eq_spec]
  exact ⟨⟨stateRunsSpec_ids clip rows, state_pairwise clip rows hsorted,
      stateRunsSpec_start_le clip rows, state_coverage clip rows⟩,
    ⟨List.enum_map_fst _, phase_pairwise rows hsorted,
      phaseRunsSpec_start_le rows, phase_coverage rows⟩⟩

/-- Witness for C7: a clip with two identical-triple rows at frames 5 and 7
(missing frame 6) satisfies the invariants; in particular the gap yields two
segments with ids 0 and 1 covering exactly frames [5] and [7]. -/
theorem segment_ids_order_and_coverage_witness :
    stateSegsInvariants
      (segment_states_clip "a"
        [[("clip", Val.str "a"), ("frame_index", Val.int 5),
          ("affordance_final", Val.str "go"), ("yield_to_final", Val.str "none"),
          ("lead_state_final", Val.str "none"),
          ("affordance_smoothed", Val.str "go"), ("yield_to_smoothed", Val.str "none"),
          ("lead_state_smoothed", Val.str "none")],
         [("clip", Val.str "a"), ("frame_index", Val.int 7),
          ("affordance_final", Val.str "go"), ("yield_to_final", Val.str "none"),
          ("lead_state_final", Val.str "none"),
          ("affordance_smoothed", Val.str "go"), ("yield_to_smoothed", Val.str "none"),
          ("lead_state_smoothed", Val.str "none")]])
      (([[("clip", Val.str "a"), ("frame_index", Val.int 5),
          ("affordance_final", Val.str "go"), ("yield_to_final", Val.str "none"),
          ("lead_state_final", Val.str "none"),
          ("affordance_smoothed", Val.str "go"), ("yield_to_smoothed", Val.str "none"),
          ("lead_state_smoothed", Val.str "none")],
         [("clip", Val.str "a"), ("frame_index", Val.int 7),
          ("affordance_final", Val.str "go"), ("yield_to_final", Val.str "none"),
          ("lead_state_final", Val.str "none"),
          ("affordance_smoothed", Val.str "go"), ("yield_to_smoothed", Val.str "none"),
          ("lead_state_smoothed", Val.str "none")]] : List Row).map fiOf) ∧
    phaseSegsInvariants
      (segment_clip
        [[("clip", Val.str "a"), ("frame_index", Val.int 5),
          ("affordance_final", Val.str "go"), ("yield_to_final", Val.str "none"),
          ("lead_state_final", Val.str "none"),
          ("affordance_smoothed", Val.str "go"), ("yield_to_smoothed", Val.str "none"),
          ("lead_state_smoothed", Val.str "none")],
         [("clip", Val.str "a"), ("frame_index", Val.int 7),
          ("affordance_final", Val.str "go"), ("yield_to_final", Val.str "none"),
          ("lead_state_final", Val.str "none"),
          ("affordance_smoothed", Val.str "go"), ("yield_to_smoothed", Val.str "none"),
          ("lead_state_smoothed", Val.str "none")]])
      (([[("clip", Val.str "a"), ("frame_index", Val.int 5),
          ("affordance_final", Val.str "go"), ("yield_to_final", Val.str "none"),
          ("lead_state_final", Val.str "none"),
          ("affordance_smoothed", Val.str "go"), ("yield_to_smoothed", Val.str "none"),
          ("lead_state_smoothed", Val.str "none")],
         [("clip", Val.str "a"), ("frame_index", Val.int 7),
          ("affordance_final", Val.str "go"), ("yield_to_final", Val.str "none"),
          ("lead_state_final", Val.str "none"),
          ("affordance_smoothed", Val.str "go"), ("yield_to_smoothed", Val.str "none"),
          ("lead_state_smoothed", Val.str "none")]] : List Row).map fiOf) :=
  segment_ids_order_and_coverage "a" _
    (by show List.Chain' (· < ·) ([5, 7] : List Int); simp)

/-- Python `r["clip"]` as used for grouping (no stripping there). -/
def clipOf (r : Row) : String := r.getStr "clip"

/-- Stable insertion into a list sorted by frame_index: the new row goes
after every row with a smaller-or-equal key, modelling the stability of
Python's `sorted(..., key=frame_index)`. -/
def insertByFi (r : Row) : List Row → List Row
  | [] => [r]
  | x :: xs => if fiOf x ≤ fiOf r then x :: insertByFi r xs else r :: x :: xs

/-- Stable sort by frame_index (insertion sort). -/
def sortByFi (rows : List Row) : List Row :=
  rows.foldl (fun acc r => insertByFi r acc) []

/-- The distinct values of a list in first-occurrence order, modelling the
insertion order of the `by_clip.setdefault(...)` grouping dict. -/
def uniqFirst {α : Type} [DecidableEq α] (l : List α) : List α :=
  l.foldl (fun acc x => if x ∈ acc then acc else acc ++ [x]) []

/-- `main` of `temporal_smoothing.py` from the point where the input rows are
loaded: zero rows raise RuntimeError before any output is opened; otherwise
the rows are grouped by clip (dict insertion order), each clip sorted by
frame_index and smoothed with window 3, and the concatenation is the data
written to the single output table. -/
def temporal_main (rows : List Row) : Except String (List Row) :=
  if rows.isEmpty then .error "No rows in input predictions file."
  else .ok ((uniqFirst (rows.map clipOf)).flatMap
    (fun c => smooth_sequence (sortByFi (rows.filter (fun r => clipOf r = c))) 3))

/-- `infer_phase` from `segment_world_state.py`. -/
def infer_phase (seg : PhaseSeg) : String :=
  let a := seg.affordance
  let y := seg.yield_to
  let l := seg.lead_state
  if a = "stop" then
    if y = "ped" then "STOP for pedestrian"
    else if y = "lead" then "STOP behind vehicle"
    else "STOP"
  else if a = "wait" then
    if y = "ped" then "YIELD to pedestrian"
    else if y = "lead" then "FOLLOW / queue"
    else "WAIT"
  else if a = "go" then
    if y = "lead" ∧ l = "moving" then "FOLLOW moving lead"
    else "GO"
  else "UNKNOWN"

/-- A data row of the phase-segment output table. -/
structure PhaseOut where
  clip : String
  segment_id : Nat
  start_frame : Int
  end_frame : Int
  affordance : String
  yield_to : String
  lead_state : String
  phase : String
deriving DecidableEq, Repr

/-- `main` of `segment_world_state.py` from the point where the rows are
loaded: the output file is opened and its header row written unconditionally
before the clip loop, so the artifact always exists; the result is the list
of data rows written (zero input rows yield `.ok []`, i.e. a header-only
table and no error — there is no empty-input check). -/
def segment_main (rows : List Row) : Except String (List PhaseOut) :=
  .ok ((uniqFirst (rows.map clipOf)).flatMap (fun c =>
    ((segment_clip (sortByFi (rows.filter (fun r => clipOf r = c)))).enum).map
      (fun p => ⟨c, p.1, p.2.start_frame, p.2.end_frame, p.2.affordance,
        p.2.yield_to, p.2.lead_state, infer_phase p.2⟩)))

/-- `segment_states` from `build_state_and_planner.py`: group the final rows
by clip (dict insertion order), sort each clip by frame_index, and run the
segment loop per clip. -/
def segment_states (rows : List Row) : List Seg :=
  (uniqFirst (rows.map clipOf)).flatMap
    (fun c => segment_states_clip c (sortByFi (rows.filter (fun r => clipOf r = c))))

/-- `main` of `build_state_and_planner.py` from the point where both input
tables are loaded: re-inject GO, build segments, attach planner records; each
of the three output tables is written only when its row list is non-empty
(`if final_rows:` etc.), and no error path exists after loading.  The result
is the list of file names written — zero input rows yield `.ok []`: no
exception raised and no artifact emitted.  (The prev/next annotation pass
does not change which files are written and is omitted here.) -/
def build_main (raw_map : RawMap) (smoothed_rows : List Row) :
    Except String (List String) :=
  let final_rows := reinject_go_short raw_map smoothed_rows
  let segs := segment_states final_rows
  let planner_rows := segs.map (fun seg => (seg, map_state_to_planner seg.state))
  .ok ((if final_rows.isEmpty then [] else ["world_state_final.csv"]) ++
    (if segs.isEmpty then [] else ["world_state_machine.csv"]) ++
    (if planner_rows.isEmpty then [] else ["planner_commands.csv"]))

/-- C8 (counterexample): on an empty input table the state/planner build and
the segmentation stage finish normally — neither raises an error, refuting
the claim that every stage is fatal on zero rows. -/
theorem build_and_segment_stage_no_error_on_empty :
    (build_main [] []).isOk = true ∧ (segment_main []).isOk = true := by
  constructor <;> rfl

/-- C8 (amended): on a zero-row input the smoothing stage alone is fatal: it
raises before writing anything.  The segmentation stage raises no error and
writes a header-only output table (zero data rows), and the state/planner
build raises no error and writes no output artifact at all. -/
theorem empty_input_behavior_by_stage :
    temporal_main [] = .error "No rows in input predictions file." ∧
    segment_main [] = .ok [] ∧
    build_main [] [] = .ok [] :=
  ⟨rfl, rfl, rfl⟩

/-- A heap of Python row-dict objects; an address is a position. -/
abbrev Heap := List Row

/-- Dereference a row object. -/
def Heap.read (h : Heap) (a : Nat) : Row := h.getD a []

/-- Mutate the row object at an address. -/
def Heap.write (h : Heap) (a : Nat) (r : Row) : Heap := h.set a r

/-- Allocate a fresh row object, returning its address. -/
def Heap.alloc (h : Heap) (r : Row) : Heap × Nat := (h ++ [r], h.length)

/-- Object-level `smooth_sequence`: each output row is built as
`dict(rows[i])` plus the three smoothed fields — a freshly allocated object —
and the input row objects are never written. -/
def smooth_sequence_heap (h : Heap) (addrs : List Nat) (window : Nat) :
    Heap × List Nat :=
  (smooth_sequence (addrs.map h.read) window).foldl
    (fun p r =>
      let q := Heap.alloc p.1 r
      (q.1, p.2 ++ [q.2]))
    (h, [])

/-- Object-level `reinject_go_short`: the three `row[...] = ...` assignments
mutate each input row dict in place, and `updated.append(row)` appends the
same object, so the output addresses are the input addresses. -/
def reinject_go_short_heap (raw_map : RawMap) (h : Heap) (addrs : List Nat) :
    Heap × List Nat :=
  addrs.foldl
    (fun p a => (p.1.write a (reinjectRow raw_map (p.1.read a)), p.2 ++ [a]))
    (h, [])

lemma Heap.read_write_self (h : Heap) (a : Nat) (r : Row) (ha : a < h.length) :
    (h.write a r).read a = r := by
  unfold Heap.read Heap.write
  rw [List.getD_eq_getElem?_getD, List.getElem?_set_self ha]
  rfl

lemma Heap.read_write_ne (h : Heap) (a b : Nat) (r : Row) (hne : b ≠ a) :
    (h.write a r).read b = h.read b := by
  unfold Heap.read Heap.write
  rw [List.getD_eq_getElem?_getD, List.getElem?_set_ne (Ne.symm hne),
    ← List.getD_eq_getElem?_getD]

lemma Heap.length_write (h : Heap) (a : Nat) (r : Row) :
    (h.write a r).length = h.length := List.length_set h a r

lemma alloc_foldl (rs : List Row) :
    ∀ (h : Heap) (acc : List Nat),
      (rs.foldl (fun p r =>
          let q := Heap.alloc p.1 r
          (q.1, p.2 ++ [q.2])) (h, acc)).1 = h ++ rs ∧
      ∀ a ∈ (rs.foldl (fun p r =>
          let q := Heap.alloc p.1 r
          (q.1, p.2 ++ [q.2])) (h, acc)).2, a ∈ acc ∨ h.length ≤ a := by
  induction rs with
  | nil =>
    intro h acc
    constructor
    · simp
    · intro a ha
      exact Or.inl ha
  | cons r rs ih =>
    intro h acc
    obtain ⟨ih1, ih2⟩ := ih (h ++ [r]) (acc ++ [h.length])
    constructor
    · rw [List.foldl_cons]
      have hres := ih1
      rw [List.append_assoc] at hres
      exact hres
    · intro a ha
      rw [List.foldl_cons] at ha
      rcases ih2 a ha with hin | hge
      · rcases List.mem_append.mp hin with hin | hin
        · exact Or.inl hin
        · right
          simp only [List.mem_singleton] at hin
          omega
      · right
        simp only [List.length_append, List.length_singleton] at hge
        omega

lemma reinject_heap_foldl (raw_map : RawMap) :
    ∀ (addrs : List Nat) (h : Heap) (acc : List Nat),
      addrs.Nodup → (∀ a ∈ addrs, a < h.length) →
      (addrs.foldl (fun p a =>
          (p.1.write a (reinjectRow raw_map (p.1.read a)), p.2 ++ [a]))
          (h, acc)).2 = acc ++ addrs ∧
      (∀ a ∈ addrs,
        (addrs.foldl (fun p a =>
            (p.1.write a (reinjectRow raw_map (p.1.read a)), p.2 ++ [a]))
            (h, acc)).1.read a = reinjectRow raw_map (h.read a)) ∧
      (∀ b, b ∉ addrs →
        (addrs.foldl (fun p a =>
            (p.1.write a (reinjectRow raw_map (p.1.read a)), p.2 ++ [a]))
            (h, acc)).1.read b = h.read b) := by
  intro addrs
  induction addrs with
  | nil =>
    intro h acc _ _
    refine ⟨by simp, by simp, fun b _ => rfl⟩
  | cons a rest ih =>
    intro h acc hnodup hlt
    have hane : a ∉ rest := (List.nodup_cons.mp hnodup).1
    have hrest : rest.Nodup := (List.nodup_cons.mp hnodup).2
    have halt : a < h.length := hlt a (List.mem_cons_self a rest)
    set h' := h.write a (reinjectRow raw_map (h.read a)) with hh'
    have hlen' : h'.length = h.length := Heap.length_write h a _
    have hlt' : ∀ x ∈ rest, x < h'.length := by
      intro x hx
      rw [hlen']
      exact hlt x (List.mem_cons_of_mem a hx)
    obtain ⟨ih1, ih2, ih3⟩ := ih h' (acc ++ [a]) hrest hlt'
    refine ⟨?_, ?_, ?_⟩
    · rw [List.foldl_cons, ih1, List.append_assoc]
      rfl
    · intro x hx
      rcases List.mem_cons.mp hx with rfl | hx
      · rw [List.foldl_cons, ih3 x hane, hh', Heap.read_write_self h x _ halt]
      · rw [List.foldl_cons, ih2 x hx, hh',
          Heap.read_write_ne h a x _ (fun hxa => hane (hxa ▸ hx))]
    · intro b hb
      have hba : b ≠ a := fun hba => hb (hba ▸ List.mem_cons_self a rest)
      have hbrest : b ∉ rest := fun hbr => hb (List.mem_cons_of_mem a hbr)
      rw [List.foldl_cons, ih3 b hbrest, hh', Heap.read_write_ne h a b _ hba]

lemma reinjectRow_hasKey (raw_map : RawMap) (row : Row) :
    (reinjectRow raw_map row).hasKey "affordance_final" = true ∧
    (reinjectRow raw_map row).hasKey "yield_to_final" = true ∧
    (reinjectRow raw_map row).hasKey "lead_state_final" = true := by
  unfold reinjectRow Row.hasKey
  refine ⟨?_, ?_, ?_⟩
  · rw [Row.get?_set_ne _ _ _ _ (by decide), Row.get?_set_ne _ _ _ _ (by decide),
      Row.get?_set_self]
    rfl
  · rw [Row.get?_set_ne _ _ _ _ (by decide), Row.get?_set_self]
    rfl
  · rw [Row.get?_set_self]
    rfl

/-- C9 (counterexample): `reinject_go_short` mutates its input row objects:
after the stage runs, the row object at the input address has acquired the
`affordance_final` field that the original row did not have — the input row
object is not unchanged. -/
theorem reinject_mutates_input_row_in_place :
    ((reinject_go_short_heap []
        [[("clip", Val.str "a"), ("frame_index", Val.int 0),
          ("affordance_smoothed", Val.str "wait")]] [0]).1.read 0).hasKey
      "affordance_final" = true ∧
    Row.hasKey [("clip", Val.str "a"), ("frame_index", Val.int 0),
        ("affordance_smoothed", Val.str "wait")]
      "affordance_final" = false := by
  constructor <;> rfl

/-- C9 (amended): SignalSmoother accretes onto copies — it allocates every
output row as a fresh object and leaves every input row object unchanged —
but GoReinjector mutates in place: it returns the input row objects
themselves (same addresses, in order), each overwritten with the `*_final`
fields accreted onto it. -/
theorem smoother_copies_reinjector_mutates (raw_map : RawMap) (h : Heap)
    (addrs : List Nat) (window : Nat)
    (hnodup : addrs.Nodup) (hlt : ∀ a ∈ addrs, a < h.length) :
    ((∀ a, a < h.length → (smooth_sequence_heap h addrs window).1.read a = h.read a) ∧
      (∀ a ∈ (smooth_sequence_heap h addrs window).2, h.length ≤ a)) ∧
    ((reinject_go_short_heap raw_map h addrs).2 = addrs ∧
      (∀ a ∈ addrs,
        (reinject_go_short_heap raw_map h addrs).1.read a
          = reinjectRow raw_map (h.read a) ∧
        ((reinject_go_short_heap raw_map h addrs).1.read a).hasKey
          "affordance_final" = true)) := by
  constructor
  · obtain ⟨hfst, hsnd⟩ := alloc_foldl (smooth_sequence (addrs.map h.read) window) h []
    constructor
    · intro a ha
      show (smooth_sequence_heap h addrs window).1.getD a [] = h.getD a []
      unfold smooth_sequence_heap
      rw [hfst]
      exact List.getD_append _ _ _ _ ha
    · intro a ha
      rcases hsnd a ha with hin | hge
      · exact absurd hin (List.not_mem_nil a)
      · exact hge
  · obtain ⟨h1, h2, _⟩ := reinject_heap_foldl raw_map addrs h [] hnodup hlt
    refine ⟨by rw [show (reinject_go_short_heap raw_map h addrs).2
        = [] ++ addrs from h1]; rfl, ?_⟩
    intro a ha
    refine ⟨h2 a ha, ?_⟩
    have := h2 a ha
    show ((reinject_go_short_heap raw_map h addrs).1.read a).hasKey
      "affordance_final" = true
    rw [show (reinject_go_short_heap raw_map h addrs).1.read a
      = reinjectRow raw_map (h.read a) from this]
    exact (reinjectRow_hasKey raw_map (h.read a)).1

/-- Witness for C9 (amended): one frame whose address is 0. -/
theorem smoother_copies_reinjector_mutates_witness :
    ((∀ a, a < List.length [[("clip", Val.str "a"), ("frame_index", Val.int 0),
          ("affordance_smoothed", Val.str "wait")]] →
        Heap.read (smooth_sequence_heap [[("clip", Val.str "a"), ("frame_index", Val.int 0),
          ("affordance_smoothed", Val.str "wait")]] [0] 3).1 a
          = Heap.read [[("clip", Val.str "a"), ("frame_index", Val.int 0),
          ("affordance_smoothed", Val.str "wait")]] a) ∧
      (∀ a ∈ (smooth_sequence_heap [[("clip", Val.str "a"), ("frame_index", Val.int 0),
          ("affordance_smoothed", Val.str "wait")]] [0] 3).2,
        List.length [[("clip", Val.str "a"), ("frame_index", Val.int 0),
          ("affordance_smoothed", Val.str "wait")]] ≤ a)) ∧
    ((reinject_go_short_heap [] [[("clip", Val.str "a"), ("frame_index", Val.int 0),
          ("affordance_smoothed", Val.str "wait")]] [0]).2 = [0] ∧
      (∀ a ∈ ([0] : List Nat),
        Heap.read (reinject_go_short_heap [] [[("clip", Val.str "a"), ("frame_index", Val.int 0),
          ("affordance_smoothed", Val.str "wait")]] [0]).1 a
          = reinjectRow [] (Heap.read [[("clip", Val.str "a"), ("frame_index", Val.int 0),
          ("affordance_smoothed", Val.str "wait")]] a) ∧
        Row.hasKey (Heap.read (reinject_go_short_heap []
            [[("clip", Val.str "a"), ("frame_index", Val.int 0),
            ("affordance_smoothed", Val.str "wait")]] [0]).1 a)
          "affordance_final" = true)) :=
  smoother_copies_reinjector_mutates []
    [[("clip", Val.str "a"), ("frame_index", Val.int 0),
      ("affordance_smoothed", Val.str "wait")]] [0] 3
    (by decide) (by decide)
